import Mathlib

/-!
Verification of the CV keyword-scoring core of the JapaneseATS resume analyzer.

The engine lives in `supabase/functions/parse-cv/index.ts` (keyword scorer,
serverless PDF text extractor, persistence caller) and
`src/utils/extractPdfText.ts` (frontend PDF text extractor).

Embedding conventions:
* JavaScript strings are lists of characters (`List Char`).
* `String.prototype.toLowerCase` is ASCII lower-casing, mapped characterwise
  (all vocabulary terms and scenario texts are ASCII).
* The regular expressions of the source are small and fixed, so each one is
  embedded directly as a Lean function on character lists:
  `/[^a-z0-9\s]/i.test(k)`, `new RegExp("\\b" + escaped + "\\b", "i").test(t)`,
  `t.includes(k)`, `/\s+/g` replacement and `trim()`.
* The PDF parsing performed by the external `pdfjs-dist` library is abstracted
  as a parse outcome: either an ordered list of pages, each page an ordered
  list of already-decoded text items, or a parse failure.  A rejected promise
  awaited without a surrounding `try` is an `Except.error`.
-/

namespace ATS

/-- The JS `\w` character class `[a-zA-Z0-9_]`, used by the `\b` assertion. -/
def isWordChar (c : Char) : Bool :=
  (97 ≤ c.toNat && c.toNat ≤ 122) || (65 ≤ c.toNat && c.toNat ≤ 90) ||
    (48 ≤ c.toNat && c.toNat ≤ 57) || c.toNat == 95

/-- The JS `\s` character class: ASCII whitespace, NBSP, BOM and the Unicode
space/line/paragraph separators. -/
def jsWhitespaceChar (c : Char) : Bool :=
  c.toNat == 32 || c.toNat == 9 || c.toNat == 10 || c.toNat == 11 ||
    c.toNat == 12 || c.toNat == 13 || c.toNat == 0xa0 || c.toNat == 0x1680 ||
    (0x2000 ≤ c.toNat && c.toNat ≤ 0x200a) || c.toNat == 0x2028 ||
    c.toNat == 0x2029 || c.toNat == 0x202f || c.toNat == 0x205f ||
    c.toNat == 0x3000 || c.toNat == 0xfeff

/-- One-character test of `/[^a-z0-9\s]/i`: true on characters that are not
letters (the `i` flag also exempts `A`-`Z`), not digits and not whitespace. -/
def symbolChar (c : Char) : Bool :=
  !((97 ≤ c.toNat && c.toNat ≤ 122) || (65 ≤ c.toNat && c.toNat ≤ 90) ||
    (48 ≤ c.toNat && c.toNat ≤ 57) || jsWhitespaceChar c)

/-- `/[^a-z0-9\s]/i.test(k)` — does the term contain a symbol character? -/
def hasSymbol (k : List Char) : Bool := k.any symbolChar

/-- `s.toLowerCase()` (ASCII). -/
def jsToLower (s : List Char) : List Char := s.map Char.toLower

/-- Is the character at index `i` of `t` a word character (out of range counts
as a non-word position, as at the edges of a JS string)? -/
def charIsWordAt (t : List Char) (i : Nat) : Bool :=
  match t[i]? with
  | some c => isWordChar c
  | none => false

/-- Is the character just before position `i` a word character? -/
def prevIsWord (t : List Char) : Nat → Bool
  | 0 => false
  | i + 1 => charIsWordAt t i

/-- The JS `\b` assertion holds at position `i` of `t`: the word-ness of the
character before the position differs from the word-ness of the one after. -/
def boundaryAt (t : List Char) (i : Nat) : Bool :=
  prevIsWord t i != charIsWordAt t i

/-- The regex `\b k \b` (with `k` literal) matches at start position `i`. -/
def matchAt (t k : List Char) (i : Nat) : Bool :=
  boundaryAt t i && (t.drop i).take k.length == k && boundaryAt t (i + k.length)

/-- `new RegExp("\\b" + escaped + "\\b", "i").test(t)` where `escaped` is the
term with regex metacharacters escaped.  This branch of `keywordExists` only
runs for terms without symbol characters, so the escaping is the identity and
the pattern is the literal term between two `\b` assertions; the regex engine
tries every start position from `0` to `t.length`. -/
def wordBoundaryTest (t k : List Char) : Bool :=
  (List.range (t.length + 1)).any (fun i => matchAt t k i)

/-- `k` occurs at position `i` of `t`. -/
def includesAt (t k : List Char) (i : Nat) : Bool :=
  (t.drop i).take k.length == k

/-- `t.includes(k)`: contiguous-substring containment. -/
def jsIncludes (t k : List Char) : Bool :=
  (List.range (t.length + 1)).any (fun i => includesAt t k i)

/-- `keywordExists(text, keyword)` from `supabase/functions/parse-cv/index.ts`:
lower-case both sides, then match by plain `includes` when the term has a
symbol character and by a word-boundary regex otherwise. -/
def keywordExists (text keyword : List Char) : Bool :=
  let t := jsToLower text
  let k := jsToLower keyword
  if hasSymbol k then jsIncludes t k
  else wordBoundaryTest t k

/-- The built-in vocabulary `JOB_KEYWORDS`, in source order. -/
def JOB_KEYWORDS : List (List Char) :=
  ["java", "javascript", "typescript", "python", "c++", "c#", "ruby", "php",
   "swift", "kotlin", "go", "rust", "scala",
   "html", "css", "react", "angular", "vue", "node.js", "nodejs", "express",
   "next.js", "nextjs", "tailwind",
   "sql", "mysql", "postgresql", "mongodb", "redis", "oracle", "sqlite",
   "dynamodb", "firebase",
   "aws", "azure", "gcp", "docker", "kubernetes", "jenkins", "ci/cd",
   "terraform", "ansible",
   "japanese", "jlpt", "n1", "n2", "n3", "n4", "n5", "english", "mandarin",
   "korean",
   "communication", "leadership", "teamwork", "problem-solving", "analytical",
   "project management",
   "bachelor", "master", "phd", "doctorate", "degree", "university", "college",
   "certification",
   "senior", "junior", "lead", "manager", "architect", "developer", "engineer",
   "analyst", "consultant",
   "api", "rest", "graphql", "microservices", "agile", "scrum", "git", "linux",
   "machine learning", "ai", "data science"].map String.data

/-- First-occurrence deduplication with an accumulator of already-seen terms. -/
def dedupAux : List (List Char) → List (List Char) → List (List Char)
  | _, [] => []
  | seen, a :: l =>
    if a ∈ seen then dedupAux seen l else a :: dedupAux (a :: seen) l

/-- `[...new Set(l)]`: drop every repeated element, keeping first occurrences
in insertion order (JS `Set` iterates in insertion order). -/
def jsSetDedup (l : List (List Char)) : List (List Char) := dedupAux [] l

/-- The result record `{ score, matchedKeywords }`. -/
structure MatchResult where
  score : Nat
  matchedKeywords : List (List Char)
deriving DecidableEq, Repr

/-- `allKeywords`: the effective vocabulary scanned by the scorer —
built-in terms followed by the lower-cased custom terms, deduplicated. -/
def effectiveVocabulary (customKeywords : List (List Char)) : List (List Char) :=
  jsSetDedup (JOB_KEYWORDS ++ customKeywords.map jsToLower)

/-- `calculateKeywordMatch(text, customKeywords)`: collect the vocabulary terms
found in the lower-cased text, in scan order, and score 10 points per matched
term capped at 100. -/
def calculateKeywordMatch (text : List Char)
    (customKeywords : List (List Char)) : MatchResult :=
  let lowerText := jsToLower text
  let matchedKeywords :=
    (effectiveVocabulary customKeywords).filter fun k => keywordExists lowerText k
  { score := min 100 (matchedKeywords.length * 10)
    matchedKeywords := matchedKeywords }

/-- Outcome of handing a byte buffer to the external `pdfjs-dist` parser:
either the document's pages (each an ordered list of decoded text items) or a
parse failure (corrupted stream, unsupported encoding, no text layer), which
surfaces as a rejected promise. -/
inductive PdfParseOutcome where
  | ok (pages : List (List (List Char)))
  | err
deriving DecidableEq, Repr

/-- `strings.join(" ")`. -/
def joinItems : List (List Char) → List Char
  | [] => []
  | [s] => s
  | s :: rest => s ++ ' ' :: joinItems rest

/-- The page loop: `fullText += strings.join(" ") + "\n"` over pages 1..n. -/
def pagesText (pages : List (List (List Char))) : List Char :=
  pages.foldl (fun acc pg => acc ++ joinItems pg ++ ['\n']) []

/-- `replace(/\s+/g, " ")`: each maximal whitespace run becomes one space. -/
def collapseWS : List Char → List Char
  | [] => []
  | c :: rest =>
    if jsWhitespaceChar c then ' ' :: collapseWS (rest.dropWhile jsWhitespaceChar)
    else c :: collapseWS rest
  termination_by s => s.length
  decreasing_by
  · simpa using Nat.lt_succ_of_le (List.dropWhile_sublist jsWhitespaceChar).length_le
  · simp

/-- `trim()`: strip leading and trailing whitespace. -/
def jsTrim (s : List Char) : List Char :=
  ((s.dropWhile jsWhitespaceChar).reverse.dropWhile jsWhitespaceChar).reverse

/-- The full normalization applied to the concatenated page text. -/
def normalizeWS (s : List Char) : List Char := jsTrim (collapseWS s)

/-- `extractTextFromPDF` (serverless): the whole body runs inside `try`; any
failure of the parse or the page loop is caught and the empty string
returned. -/
def extractTextFromPDF : PdfParseOutcome → List Char
  | .ok pages => normalizeWS (pagesText pages)
  | .err => []

/-- `extractPdfTextFromBlob` (frontend): same pipeline but with no
`try`/`catch`, so a parse failure propagates to the caller as a raised
error. -/
def extractPdfTextFromBlob : PdfParseOutcome → Except Unit (List Char)
  | .ok pages => .ok (normalizeWS (pagesText pages))
  | .err => .error ()

/-- The columns the serverless handler writes to the `applicants` row. -/
structure ApplicantUpdate where
  cv_extracted_text : List Char
  matched_keywords : List (List Char)
  keyword_match_score : Nat
deriving DecidableEq, Repr

/-- The update payload built by the `Deno.serve` handler:
`cv_extracted_text: extractedText.substring(0, 50000)` together with the
scorer's outputs stored as-is. -/
def buildApplicantUpdate (extractedText : List Char)
    (customKeywords : List (List Char)) : ApplicantUpdate :=
  let r := calculateKeywordMatch extractedText customKeywords
  { cv_extracted_text := extractedText.take 50000
    matched_keywords := r.matchedKeywords
    keyword_match_score := r.score }

/-- The term occurs in `t` as a whole token: at some position, preceded and
followed by a word boundary. -/
def occursWithBoundaries (t k : List Char) : Prop :=
  ∃ i, i + k.length ≤ t.length ∧ (t.drop i).take k.length = k ∧
    boundaryAt t i = true ∧ boundaryAt t (i + k.length) = true

/-- `k` is a contiguous substring of `t`. -/
def substringOf (k t : List Char) : Prop :=
  ∃ pre post, t = pre ++ k ++ post

/-- Membership in the character class `[a-z0-9 ]` (lowercase letter, digit or
the space character), the class the specification uses to separate the two
matching branches. -/
def plainChar (c : Char) : Bool :=
  (97 ≤ c.toNat && c.toNat ≤ 122) || (48 ≤ c.toNat && c.toNat ≤ 57) ||
    c.toNat == 32

/-! ### General lemmas about the embedded operations -/

theorem length_le_of_slice {t k : List Char} {i : Nat} (hi : i ≤ t.length)
    (h : (t.drop i).take k.length = k) : i + k.length ≤ t.length := by
  have hl := congrArg List.length h
  simp only [List.length_take, List.length_drop] at hl
  omega

theorem wordBoundaryTest_iff (t k : List Char) :
    wordBoundaryTest t k = true ↔ occursWithBoundaries t k := by
  unfold wordBoundaryTest occursWithBoundaries matchAt
  simp only [List.any_eq_true, List.mem_range, Bool.and_eq_true, beq_iff_eq]
  constructor
  · rintro ⟨i, hi, ⟨hb1, hk⟩, hb2⟩
    exact ⟨i, length_le_of_slice (Nat.lt_succ_iff.mp hi) hk, hk, hb1, hb2⟩
  · rintro ⟨i, hlen, hk, hb1, hb2⟩
    exact ⟨i, by omega, ⟨hb1, hk⟩, hb2⟩

theorem jsIncludes_iff (t k : List Char) :
    jsIncludes t k = true ↔ substringOf k t := by
  unfold jsIncludes includesAt substringOf
  simp only [List.any_eq_true, List.mem_range, beq_iff_eq]
  constructor
  · rintro ⟨i, hi, hk⟩
    refine ⟨t.take i, t.drop (i + k.length), ?_⟩
    calc t = t.take i ++ t.drop i := (List.take_append_drop i t).symm
      _ = t.take i ++ (k ++ t.drop (i + k.length)) := by
            rw [← List.take_append_drop k.length (t.drop i), hk, List.drop_drop]
      _ = t.take i ++ k ++ t.drop (i + k.length) := by rw [List.append_assoc]
  · rintro ⟨pre, post, rfl⟩
    refine ⟨pre.length, ?_, ?_⟩
    · simp only [List.length_append]
      omega
    · rw [List.append_assoc, List.drop_left, List.take_left]

theorem toLower_eq_of_plain {c : Char} (h : plainChar c = true) :
    Char.toLower c = c := by
  have hc : ¬(Char.toNat c ≥ 65 ∧ Char.toNat c ≤ 90) := by
    simp only [plainChar, Bool.or_eq_true, Bool.and_eq_true, decide_eq_true_eq,
      beq_iff_eq] at h
    omega
  simp only [Char.toLower, if_neg hc]

theorem symbolChar_eq_false_of_plain {c : Char} (h : plainChar c = true) :
    symbolChar c = false := by
  simp only [plainChar, Bool.or_eq_true, Bool.and_eq_true, decide_eq_true_eq,
    beq_iff_eq] at h
  simp only [symbolChar, jsWhitespaceChar, Bool.not_eq_false', Bool.or_eq_true,
    Bool.and_eq_true, decide_eq_true_eq, beq_iff_eq]
  omega

theorem jsToLower_eq_self_of_plain {k : List Char} (h : k.all plainChar = true) :
    jsToLower k = k := by
  simp only [List.all_eq_true] at h
  unfold jsToLower
  calc k.map Char.toLower = k.map id := by
        apply List.map_congr_left
        intro c hc
        exact toLower_eq_of_plain (h c hc)
    _ = k := List.map_id k

theorem hasSymbol_eq_false_of_plain {k : List Char} (h : k.all plainChar = true) :
    hasSymbol k = false := by
  simp only [List.all_eq_true] at h
  simp only [hasSymbol, List.any_eq_false]
  intro c hc
  simp [symbolChar_eq_false_of_plain (h c hc)]

theorem mem_dedupAux (x : List Char) (l : List (List Char)) :
    ∀ seen, x ∈ dedupAux seen l ↔ x ∈ l ∧ x ∉ seen := by
  induction l with
  | nil =>
    intro seen
    simp [dedupAux]
  | cons a l ih =>
    intro seen
    simp only [dedupAux]
    by_cases ha : a ∈ seen
    · rw [if_pos ha, ih seen]
      constructor
      · rintro ⟨h1, h2⟩
        exact ⟨List.mem_cons_of_mem _ h1, h2⟩
      · rintro ⟨h1, h2⟩
        rcases List.mem_cons.mp h1 with rfl | h1
        · exact absurd ha h2
        · exact ⟨h1, h2⟩
    · rw [if_neg ha]
      constructor
      · intro hx
        rcases List.mem_cons.mp hx with rfl | hx
        · exact ⟨List.mem_cons_self _ _, ha⟩
        · rcases (ih _).mp hx with ⟨h1, h2⟩
          exact ⟨List.mem_cons_of_mem _ h1,
            fun hs => h2 (List.mem_cons_of_mem _ hs)⟩
      · rintro ⟨h1, h2⟩
        rcases List.mem_cons.mp h1 with rfl | h1
        · exact List.mem_cons_self _ _
        · by_cases hxa : x = a
          · subst hxa
            exact List.mem_cons_self _ _
          · refine List.mem_cons_of_mem _ ((ih _).mpr ⟨h1, fun hs => ?_⟩)
            rcases List.mem_cons.mp hs with h | h
            · exact hxa h
            · exact h2 h

theorem dedupAux_nodup (l : List (List Char)) :
    ∀ seen, (dedupAux seen l).Nodup := by
  induction l with
  | nil =>
    intro seen
    simp [dedupAux]
  | cons a l ih =>
    intro seen
    simp only [dedupAux]
    by_cases ha : a ∈ seen
    · rw [if_pos ha]
      exact ih seen
    · rw [if_neg ha]
      refine List.nodup_cons.mpr ⟨fun hmem => ?_, ih _⟩
      exact ((mem_dedupAux a l _).mp hmem).2 (List.mem_cons_self _ _)

theorem dedupAux_eq_self (l : List (List Char)) :
    ∀ seen, l.Nodup → (∀ x ∈ l, x ∉ seen) → dedupAux seen l = l := by
  induction l with
  | nil =>
    intro seen _ _
    rfl
  | cons a l ih =>
    intro seen hnd hdisj
    simp only [dedupAux]
    rw [if_neg (hdisj a (List.mem_cons_self _ _))]
    congr 1
    refine ih (a :: seen) (List.nodup_cons.mp hnd).2 fun x hx hs => ?_
    rcases List.mem_cons.mp hs with rfl | h
    · exact (List.nodup_cons.mp hnd).1 hx
    · exact hdisj x (List.mem_cons_of_mem _ hx) h

theorem dedupAux_append_middle (x : List Char) (l1 : List (List Char)) :
    ∀ (seen l2 : List (List Char)), x ∈ seen ∨ x ∈ l1 →
      dedupAux seen (l1 ++ x :: l2) = dedupAux seen (l1 ++ l2) := by
  induction l1 with
  | nil =>
    intro seen l2 h
    rcases h with h | h
    · simp only [List.nil_append, dedupAux]
      rw [if_pos h]
    · exact absurd h (List.not_mem_nil x)
  | cons a l1 ih =>
    intro seen l2 h
    simp only [List.cons_append, dedupAux]
    by_cases ha : a ∈ seen
    · rw [if_pos ha, if_pos ha]
      refine ih seen l2 ?_
      rcases h with h | h
      · exact Or.inl h
      · rcases List.mem_cons.mp h with rfl | h
        · exact Or.inl ha
        · exact Or.inr h
    · rw [if_neg ha, if_neg ha]
      congr 1
      refine ih (a :: seen) l2 ?_
      rcases h with h | h
      · exact Or.inl (List.mem_cons_of_mem _ h)
      · rcases List.mem_cons.mp h with rfl | h
        · exact Or.inl (List.mem_cons_self _ _)
        · exact Or.inr h

theorem JOB_KEYWORDS_nodup : JOB_KEYWORDS.Nodup := by decide

theorem JOB_KEYWORDS_lower : ∀ b ∈ JOB_KEYWORDS, jsToLower b = b := by decide

theorem keywordExists_nil (k : List Char) : keywordExists [] k = false := by
  unfold keywordExists
  by_cases h : hasSymbol (jsToLower k) = true
  · rw [if_pos h]
    rcases hk : jsToLower k with _ | ⟨a, l⟩
    · rw [hk] at h
      simp [hasSymbol] at h
    · simp [jsIncludes, includesAt, jsToLower, List.take_nil]
  · rw [if_neg h]
    rfl

theorem toNat_ofNat_of_lt {n : Nat} (h : n < 0xd800) :
    (Char.ofNat n).toNat = n := by
  rw [Char.ofNat, dif_pos (Or.inl h)]
  rfl

theorem isWordChar_toLower {c : Char} (h : isWordChar c = true) :
    isWordChar (Char.toLower c) = true := by
  simp only [isWordChar, Bool.or_eq_true, Bool.and_eq_true, decide_eq_true_eq,
    beq_iff_eq] at h ⊢
  simp only [Char.toLower]
  by_cases hu : Char.toNat c ≥ 65 ∧ Char.toNat c ≤ 90
  · rw [if_pos hu, toNat_ofNat_of_lt (show Char.toNat c + 32 < 0xd800 by omega)]
    omega
  · rw [if_neg hu]
    exact h

theorem any_isWordChar_jsToLower {t : List Char} (h : t.any isWordChar = true) :
    (jsToLower t).any isWordChar = true := by
  rw [jsToLower, List.any_map]
  rcases List.any_eq_true.mp h with ⟨c, hc, hw⟩
  exact List.any_eq_true.mpr ⟨c, hc, isWordChar_toLower hw⟩

theorem charIsWordAt_cons_succ (c : Char) (rest : List Char) (i : Nat) :
    charIsWordAt (c :: rest) (i + 1) = charIsWordAt rest i := by
  simp [charIsWordAt]

theorem boundaryAt_cons_succ {c : Char} (rest : List Char) (i : Nat)
    (hc : isWordChar c = false) :
    boundaryAt (c :: rest) (i + 1) = boundaryAt rest i := by
  cases i with
  | zero => simp [boundaryAt, prevIsWord, charIsWordAt, hc]
  | succ j => simp [boundaryAt, prevIsWord, charIsWordAt_cons_succ]

theorem exists_boundary (t : List Char) (h : t.any isWordChar = true) :
    ∃ i, i ≤ t.length ∧ boundaryAt t i = true := by
  induction t with
  | nil => simp at h
  | cons c rest ih =>
    by_cases hc : isWordChar c = true
    · refine ⟨0, Nat.zero_le _, ?_⟩
      simp [boundaryAt, prevIsWord, charIsWordAt, hc]
    · have hc' : isWordChar c = false := by
        cases hcc : isWordChar c
        · rfl
        · exact absurd hcc hc
      have hrest : rest.any isWordChar = true := by
        simp only [List.any_cons, hc', Bool.false_or] at h
        exact h
      obtain ⟨i, hi, hb⟩ := ih hrest
      refine ⟨i + 1, Nat.succ_le_succ hi, ?_⟩
      rw [boundaryAt_cons_succ rest i hc']
      exact hb

theorem keywordExists_empty_term {text : List Char}
    (h : text.any isWordChar = true) : keywordExists text [] = true := by
  simp only [keywordExists]
  rw [if_neg (by decide)]
  obtain ⟨i, hi, hb⟩ := exists_boundary _ (any_isWordChar_jsToLower h)
  refine List.any_eq_true.mpr ⟨i, List.mem_range.mpr (by omega), ?_⟩
  simp only [jsToLower] at hb ⊢
  simp [matchAt, hb]

/-! ### Claim theorems -/

/-- C1, counterexample: on the end-to-end scenario text the scorer does NOT
return the five-term match list with score 50 that the specification
predicts — the text also contains the vocabulary terms `jlpt` and
`developer`. -/
theorem endToEnd_scenario_counterexample :
    calculateKeywordMatch
        "Senior Python developer with AWS and Docker experience, JLPT N2 certified".data
        [] ≠
      { score := 50,
        matchedKeywords := ["python", "aws", "docker", "senior", "n2"].map
          String.data } := by
  decide

/-- C1, amended: for the scenario text and an empty custom-term list, the
scorer returns exactly the seven terms `python, aws, docker, jlpt, n2, senior,
developer` in vocabulary-scan order, and score 70. -/
theorem endToEnd_scenario :
    calculateKeywordMatch
        "Senior Python developer with AWS and Docker experience, JLPT N2 certified".data
        [] =
      { score := 70,
        matchedKeywords := ["python", "aws", "docker", "jlpt", "n2", "senior",
          "developer"].map String.data } := by
  decide

/-- C2: for every text and custom-term list the score equals
`min 100 (10 * number of matched keywords)`, hence is at most 100, and ten or
more matched terms force score exactly 100. -/
theorem score_eq_min_and_bounded (text : List Char)
    (customKeywords : List (List Char)) :
    (calculateKeywordMatch text customKeywords).score =
      min 100
        ((calculateKeywordMatch text customKeywords).matchedKeywords.length * 10) ∧
    (calculateKeywordMatch text customKeywords).score ≤ 100 ∧
    (10 ≤ (calculateKeywordMatch text customKeywords).matchedKeywords.length →
      (calculateKeywordMatch text customKeywords).score = 100) := by
  refine ⟨rfl, Nat.min_le_left _ _, fun h => ?_⟩
  show min 100 ((calculateKeywordMatch text customKeywords).matchedKeywords.length * 10) = 100
  omega

/-- Witness for C2 at a text matching exactly ten vocabulary terms. -/
theorem score_eq_min_and_bounded_witness :
    10 ≤ (calculateKeywordMatch "java go php css sql aws gcp api ai git".data
        []).matchedKeywords.length ∧
    (calculateKeywordMatch "java go php css sql aws gcp api ai git".data
        []).score = 100 :=
  ⟨by decide,
    (score_eq_min_and_bounded "java go php css sql aws gcp api ai git".data
      []).2.2 (by decide)⟩

/-- C5, counterexample: the frontend extractor `extractPdfTextFromBlob` has no
`try`/`catch`, so on an unparseable document it propagates the error instead
of returning the empty string. -/
theorem extractPdfTextFromBlob_raises :
    extractPdfTextFromBlob PdfParseOutcome.err = Except.error () ∧
    extractPdfTextFromBlob PdfParseOutcome.err ≠ Except.ok [] :=
  ⟨rfl, fun h => Except.noConfusion h⟩

/-- C5, amended: the serverless extractor `extractTextFromPDF` returns the
empty string on an unparseable document; the frontend extractor
`extractPdfTextFromBlob` computes the same string on success but propagates
the parse failure to its caller instead of returning the empty string. -/
theorem extractors_failure_policy :
    extractTextFromPDF PdfParseOutcome.err = [] ∧
    (∀ pages, extractPdfTextFromBlob (PdfParseOutcome.ok pages) =
        Except.ok (extractTextFromPDF (PdfParseOutcome.ok pages))) ∧
    extractPdfTextFromBlob PdfParseOutcome.err = Except.error () :=
  ⟨rfl, fun _ => rfl, rfl⟩

/-- C7: the scorer is total, and on the empty text it returns score 0 and an
empty matched-keyword list whatever the custom terms are. -/
theorem calculateKeywordMatch_empty_text (customKeywords : List (List Char)) :
    calculateKeywordMatch [] customKeywords =
      { score := 0, matchedKeywords := [] } := by
  simp only [calculateKeywordMatch]
  rw [List.filter_eq_nil_iff.mpr fun a _ => by
    show ¬keywordExists (jsToLower []) a = true
    simp [jsToLower, keywordExists_nil]]
  rfl

/-- C8: the matched-keyword list is a duplicate-free sublist of the effective
vocabulary, so each vocabulary term appears at most once and the matches keep
vocabulary-scan order. -/
theorem matchedKeywords_sublist_nodup (text : List Char)
    (customKeywords : List (List Char)) :
    List.Sublist (calculateKeywordMatch text customKeywords).matchedKeywords
      (effectiveVocabulary customKeywords) ∧
    (calculateKeywordMatch text customKeywords).matchedKeywords.Nodup :=
  ⟨List.filter_sublist _,
    (List.filter_sublist _).nodup (dedupAux_nodup _ _)⟩

/-- C9: the serverless handler stores the extracted text truncated to its
first 50,000 characters — a leading segment of length
`min (length) 50000` — while the matched keywords and the score are stored
exactly as the scorer produced them. -/
theorem buildApplicantUpdate_truncates (extractedText : List Char)
    (customKeywords : List (List Char)) :
    (buildApplicantUpdate extractedText customKeywords).cv_extracted_text =
      extractedText.take 50000 ∧
    (buildApplicantUpdate extractedText customKeywords).cv_extracted_text.length =
      min extractedText.length 50000 ∧
    (∃ rest, extractedText =
      (buildApplicantUpdate extractedText customKeywords).cv_extracted_text ++
        rest) ∧
    (buildApplicantUpdate extractedText customKeywords).matched_keywords =
      (calculateKeywordMatch extractedText customKeywords).matchedKeywords ∧
    (buildApplicantUpdate extractedText customKeywords).keyword_match_score =
      (calculateKeywordMatch extractedText customKeywords).score := by
  refine ⟨rfl, ?_,
    ⟨extractedText.drop 50000, (List.take_append_drop _ _).symm⟩, rfl, rfl⟩
  show (extractedText.take 50000).length = min extractedText.length 50000
  rw [List.length_take, Nat.min_comm]

/-- C3: for a term whose characters all lie in `[a-z0-9 ]`, `keywordExists`
succeeds exactly when the term occurs in the lower-cased text bounded by word
boundaries on both sides — never as a proper substring of a larger token;
concretely, `go` does not match "I am going home" but matches
"I use Go daily". -/
theorem keywordExists_plain_iff :
    (∀ text k : List Char, k.all plainChar = true →
      (keywordExists text k = true ↔ occursWithBoundaries (jsToLower text) k)) ∧
    keywordExists "I am going home".data "go".data = false ∧
    keywordExists "I use Go daily".data "go".data = true := by
  refine ⟨fun text k h => ?_, by decide, by decide⟩
  simp only [keywordExists]
  rw [jsToLower_eq_self_of_plain h,
    if_neg (by simp [hasSymbol_eq_false_of_plain h])]
  exact wordBoundaryTest_iff _ _

/-- Witness for C3 at the term `go` and the text "I use Go daily". -/
theorem keywordExists_plain_iff_witness :
    "go".data.all plainChar = true ∧
    (keywordExists "I use Go daily".data "go".data = true ↔
      occursWithBoundaries (jsToLower "I use Go daily".data) "go".data) :=
  ⟨by decide,
    keywordExists_plain_iff.1 "I use Go daily".data "go".data (by decide)⟩

/-- C4, counterexample: the term `a<TAB>b` contains a character (the tab)
outside `[a-z0-9 ]`, and its lower-casing is a contiguous substring of the
lower-cased text `xa<TAB>bz`, yet `keywordExists` rejects the pair: the JS
class `\s` puts whitespace-bearing terms in the word-boundary branch, not the
substring branch. -/
theorem keywordExists_symbol_counterexample :
    "a\tb".data.all plainChar = false ∧
    substringOf (jsToLower "a\tb".data) (jsToLower "xa\tbz".data) ∧
    keywordExists "xa\tbz".data "a\tb".data = false :=
  ⟨by decide, ⟨"x".data, "z".data, by decide⟩, by decide⟩

/-- C4, amended: for every term whose lower-casing contains a character that
is not an ASCII letter, digit or whitespace (the condition `/[^a-z0-9\s]/i`
actually tested by the code), `keywordExists` succeeds iff the lower-cased
term is a contiguous substring of the lower-cased text; the scenario text
matches both `c++` and `ci/cd`. -/
theorem keywordExists_symbol_iff :
    (∀ text k : List Char, hasSymbol (jsToLower k) = true →
      (keywordExists text k = true ↔
        substringOf (jsToLower k) (jsToLower text))) ∧
    keywordExists "Experienced in C++ and CI/CD pipelines".data
      "c++".data = true ∧
    keywordExists "Experienced in C++ and CI/CD pipelines".data
      "ci/cd".data = true := by
  refine ⟨fun text k h => ?_, by decide, by decide⟩
  simp only [keywordExists]
  rw [if_pos h]
  exact jsIncludes_iff _ _

/-- Witness for C4 at the term `c++` and the scenario text. -/
theorem keywordExists_symbol_iff_witness :
    hasSymbol (jsToLower "c++".data) = true ∧
    (keywordExists "Experienced in C++ and CI/CD pipelines".data
        "c++".data = true ↔
      substringOf (jsToLower "c++".data)
        (jsToLower "Experienced in C++ and CI/CD pipelines".data)) :=
  ⟨by decide,
    keywordExists_symbol_iff.1 "Experienced in C++ and CI/CD pipelines".data
      "c++".data (by decide)⟩

/-- C6: a custom term that equals a built-in term up to letter case leaves the
scorer's entire output unchanged: the result with the duplicate present equals
the result with it omitted. -/
theorem duplicate_custom_term_noop (text : List Char)
    (pre post : List (List Char)) (c : List Char)
    (h : ∃ b ∈ JOB_KEYWORDS, jsToLower c = jsToLower b) :
    calculateKeywordMatch text (pre ++ c :: post) =
      calculateKeywordMatch text (pre ++ post) := by
  obtain ⟨b, hb, hcb⟩ := h
  have hbl : jsToLower b = b := JOB_KEYWORDS_lower b hb
  have hvocab : effectiveVocabulary (pre ++ c :: post) =
      effectiveVocabulary (pre ++ post) := by
    unfold effectiveVocabulary jsSetDedup
    rw [List.map_append, List.map_cons, List.map_append,
      ← List.append_assoc, ← List.append_assoc]
    exact dedupAux_append_middle (jsToLower c) _ _ _
      (Or.inr (by rw [hcb, hbl]; exact List.mem_append_left _ hb))
  simp only [calculateKeywordMatch, hvocab]

/-- Witness for C6: the custom term `Python` duplicates the built-in `python`
and does not change the result. -/
theorem duplicate_custom_term_noop_witness :
    (∃ b ∈ JOB_KEYWORDS, jsToLower "Python".data = jsToLower b) ∧
    calculateKeywordMatch "python code".data ["Python".data] =
      calculateKeywordMatch "python code".data [] :=
  ⟨by decide,
    duplicate_custom_term_noop "python code".data [] [] "Python".data
      (by decide)⟩

/-- C10: if the custom terms contain the empty string and the text contains a
word character, the empty term is matched (its word-boundary regex `\b\b`
accepts any text with a word boundary); with custom list exactly `[""]` the
matched list is the built-in-only matched list followed by `""`, and the score
gains 10 points before the cap. -/
theorem empty_custom_term_matches (text : List Char)
    (customKeywords : List (List Char)) (hmem : [] ∈ customKeywords)
    (hword : text.any isWordChar = true) :
    [] ∈ (calculateKeywordMatch text customKeywords).matchedKeywords ∧
    (calculateKeywordMatch text [[]]).matchedKeywords =
      (calculateKeywordMatch text []).matchedKeywords ++ [[]] ∧
    (calculateKeywordMatch text [[]]).score =
      min 100 ((calculateKeywordMatch text []).matchedKeywords.length * 10 + 10) := by
  have hp : keywordExists (jsToLower text) [] = true :=
    keywordExists_empty_term (any_isWordChar_jsToLower hword)
  have hvoc1 : effectiveVocabulary [[]] = JOB_KEYWORDS ++ [[]] := by
    unfold effectiveVocabulary jsSetDedup
    rw [show ([([] : List Char)]).map jsToLower = [[]] from rfl]
    exact dedupAux_eq_self _ _ (by decide) (by simp)
  have hvoc0 : effectiveVocabulary [] = JOB_KEYWORDS := by
    unfold effectiveVocabulary jsSetDedup
    rw [List.map_nil, List.append_nil]
    exact dedupAux_eq_self _ _ JOB_KEYWORDS_nodup (by simp)
  refine ⟨?_, ?_, ?_⟩
  · show [] ∈ (effectiveVocabulary customKeywords).filter
      (fun k => keywordExists (jsToLower text) k)
    refine List.mem_filter.mpr ⟨?_, hp⟩
    unfold effectiveVocabulary jsSetDedup
    refine ((mem_dedupAux _ _ _).mpr ⟨?_, by simp⟩)
    exact List.mem_append_right _ (List.mem_map.mpr ⟨[], hmem, rfl⟩)
  · show (effectiveVocabulary [[]]).filter
        (fun k => keywordExists (jsToLower text) k) =
      (effectiveVocabulary []).filter
        (fun k => keywordExists (jsToLower text) k) ++ [[]]
    rw [hvoc1, hvoc0, List.filter_append]
    congr 1
    simp [hp]
  · show min 100 (((effectiveVocabulary [[]]).filter
        (fun k => keywordExists (jsToLower text) k)).length * 10) =
      min 100 (((effectiveVocabulary []).filter
        (fun k => keywordExists (jsToLower text) k)).length * 10 + 10)
    rw [hvoc1, hvoc0, List.filter_append]
    have hone : (([([] : List Char)]).filter
        (fun k => keywordExists (jsToLower text) k)).length = 1 := by
      simp [hp]
    rw [List.length_append, hone]
    omega

/-- Witness for C10 at the text `a` and the custom list `[""]`. -/
theorem empty_custom_term_matches_witness :
    ([] ∈ [([] : List Char)]) ∧ "a".data.any isWordChar = true ∧
    [] ∈ (calculateKeywordMatch "a".data [[]]).matchedKeywords :=
  ⟨by decide, by decide,
    (empty_custom_term_matches "a".data [[]] (by decide) (by decide)).1⟩

end ATS
